import Mathlib

/-!
# Java EditLine: the native completion and history glue

A shallow embedding of `src/org_clapper_editline_EditLine.c`:

* `common_first_substring`, the recursive common leading substring of the
  candidate strings;
* `set_prompt` / `get_prompt` over the 128-byte prompt field of
  `jEditLineData`;
* `complete`, the completion handler: the backward scan for the token start,
  the call of the Java candidate producer, and the buffer edits made through
  `el_deletestr` / `el_insertstr`;
* `n_history_get_all`, the traversal of the history store into a Java array.

Conventions. A byte is written as a `Char`, and a C string is the list of its
bytes before the terminating NUL. Pointers into the line buffer are offsets
from `lineInfo->buffer`, kept as `Int` because the scan of `complete` can step
to `buffer - 1`. The `int` lengths of the C code are unbounded here; lines and
candidates of 2^31 bytes or more are outside the model. `malloc` and `strdup`
are taken to succeed, as the C code assumes (it never tests their results).

The library behind the code is libedit 3.1. It keeps the line as wide
characters and converts at its `char` interface: `el_line` hands out a
multibyte copy of the line, `el_deletestr` counts wide characters, and
`el_insertstr` decodes its argument with `mbstowcs`. The two conversions of
the locale are a parameter of the model; the UTF-8 locale is given in full.
The history store is libedit's default one, with its size and its eviction.
-/

namespace JavaEditLine

/-! ## C strings and bytes -/

/-- Bytes of a C string, the terminating NUL left out. -/
abbrev CStr := List Char

/-- The NUL byte. -/
def NUL : Char := Char.ofNat 0

/-- The macro `PROMPT_MAX`. -/
def PROMPT_MAX : Nat := 128

/-- The `isspace` of `<ctype.h>` in the "C" locale: space, and the five
control characters `\t \n \v \f \r` (codes 9 to 13). -/
def isspace (c : Char) : Bool :=
  c.toNat = 32 || (9 ≤ c.toNat && c.toNat ≤ 13)

/-- The C string that starts at the first of `bytes`: everything before the
first NUL. -/
def c_str (bytes : List Char) : CStr :=
  bytes.takeWhile (fun c => c != NUL)

/-- The call `strncpy(dest, src, n)` of `<string.h>`, on a destination of at
least `n` bytes: exactly `n` bytes are written, the first `n` bytes of `src`
and, when `src` is shorter, NUL padding up to `n`; the bytes of `dest` from
index `n` on are not touched. No terminator is written when `src` has `n`
bytes or more. -/
def strncpy (dest : List Char) (src : CStr) (n : Nat) : List Char :=
  src.take n ++ List.replicate (n - src.length) NUL ++ dest.drop n

/-! ## common_first_substring (lines 84-153) -/

/-- The comparison loop of `common_first_substring` (lines 130-137):
`for (f = first, s = subcommon, i = 0; i < shortest; i++, s++, f++)`.
The first argument is the number of iterations left, `shortest - i`; `f` and
`s` are the two walking pointers, seen as the rest of each string (reading
at the end of a string gives its NUL); the result is the final `total`. -/
def common_run : Nat → CStr → CStr → Nat → Nat
  | 0, _, _, total => total
  | k + 1, f, s, total =>
    if f.headD NUL ≠ s.headD NUL then total
    else common_run k f.tail s.tail (total + 1)

/-- The function `common_first_substring(env, strings, len, start)`; `none`
is the NULL result. `strings` holds the UTF-8 text of each array element
(`GetStringUTFChars` is taken to succeed: the C code uses its result
unchecked). The indices `start .. start + len - 1` lie in the array at every
call `complete` makes. -/
def common_first_substring (strings : List CStr) : Nat → Nat → Option CStr
  | 0, _ => none
  | 1, start => some (strings.getD start [])
  | len + 2, start =>
    match common_first_substring strings (len + 1) (start + 1) with
    | none => none
    | some subcommon =>
      let first := strings.getD start []
      let first_len := first.length
      let subcommon_len := subcommon.length
      if first_len = 0 ∨ subcommon_len = 0 then none
      else
        let shortest := min subcommon_len first_len
        let total := common_run shortest first subcommon 0
        if total > 0 then some (first.take total) else none

/-! ## The prompt (lines 60-71, 155-165, 305-349) -/

/-- The fields of `jEditLineData` the model needs: the `PROMPT_MAX` bytes of
`prompt` and `max_history_size`. -/
structure jEditLineData where
  /-- The field `char prompt[PROMPT_MAX]`, as its 128 bytes. -/
  prompt : List Char
  /-- The field `jint max_history_size`. -/
  max_history_size : Int
deriving DecidableEq, Repr

/-- The allocation branch of `n_el_init` (lines 315-345). `block` is what the
memory returned by `malloc(sizeof(jEditLineData))` holds at the `prompt`
field: `malloc` does not clear it and `n_el_init` never writes to
`data->prompt`, it only sets the other fields. -/
def n_el_init (block : List Char) : jEditLineData :=
  { prompt := block, max_history_size := 0 }

/-- The function `set_prompt`:
`strncpy(data->prompt, new_prompt, PROMPT_MAX - 1)`. -/
def set_prompt (data : jEditLineData) (new_prompt : CStr) : jEditLineData :=
  { data with prompt := strncpy data.prompt new_prompt (PROMPT_MAX - 1) }

/-- The function `get_prompt` returns the address of `data->prompt`; what
libedit reads there is the C string starting at that address. The result is
`none` when the 128 bytes hold no NUL: the read then runs past the field. -/
def get_prompt (data : jEditLineData) : Option CStr :=
  if NUL ∈ data.prompt then some (c_str data.prompt) else none

/-! ## The line buffer and the editing primitives -/

/-- What `el_line` exposes: the bytes `buffer[0 .. lastchar)` and the cursor
as an offset from `buffer` (libedit keeps `buffer ≤ cursor ≤ lastchar`).
`under` is the byte stored at `buffer[-1]`, just below the line buffer; it is
not part of the line and libedit does not control it. -/
structure LineInfo where
  /-- The byte at `buffer[-1]`. -/
  under : Char
  /-- The bytes `buffer[0 .. lastchar)`. -/
  buffer : List Char
  /-- The offset `cursor - buffer`. -/
  cursor : Nat
deriving DecidableEq, Repr

/-- The read `*ptr` for a pointer `ptr` given as an offset from `buffer`.
With `cursor ≤ lastchar` the scan of `complete` only reads offsets from `-1`
up to `cursor - 1`. -/
def LineInfo.deref (li : LineInfo) (ptr : Int) : Char :=
  if ptr < 0 then li.under else li.buffer.getD ptr.toNat NUL

/-- A wide character (`wchar_t`): libedit keeps the line as wide characters
and converts to and from multibyte strings at its `char` interface. -/
abbrev WChar := Char

/-- The multibyte encoding of the process locale, through the two libc
conversions libedit's `char` interface uses. -/
structure Locale where
  /-- The call `wcrtomb` on one wide character: its bytes, none when the
  character has no encoding (libedit then counts a width of 0). -/
  wcrtomb : WChar → List Char
  /-- The call `mbstowcs` on a whole C string: the wide characters, or `none`
  for the result `(size_t)-1` on an invalid or incomplete sequence. -/
  mbstowcs : CStr → Option (List WChar)

/-- The function `ct_encode_string` of libedit: the multibyte string of a wide
string, character by character. -/
def ct_encode_string (L : Locale) : List WChar → List Char
  | [] => []
  | c :: s => L.wcrtomb c ++ ct_encode_string L s

/-- A call that `complete` makes on the outside world, in the order made. -/
inductive Effect
  /-- The Java method `showCompletions(String[])`. -/
  | showCompletions (completions : List CStr)
  /-- The call `el_deletestr(el, n)`. -/
  | el_deletestr (n : Int)
  /-- The call `el_insertstr(el, s)`. -/
  | el_insertstr (s : CStr)
  /-- The call `fputs(msg, stderr)`. -/
  | fputs_stderr (msg : String)
deriving DecidableEq, Repr

/-- The editing session seen from `complete`: the line of the `EditLine`
handle, which libedit holds as wide characters with the cursor counted in
wide characters, the byte below the multibyte copy that `el_line` hands out,
and the log of the calls made so far. -/
structure EditLine where
  /-- The byte at `buffer[-1]` of the multibyte copy of the line. -/
  under : Char
  /-- The wide characters of the line, up to `lastchar`. -/
  wline : List WChar
  /-- The cursor, as a count of wide characters from the start of the line. -/
  wcursor : Nat
  /-- The calls made so far, oldest first. -/
  log : List Effect
deriving DecidableEq, Repr

/-- The line information that `el_line` builds: `buffer` is the multibyte
encoding of the wide line, and `cursor` lies at the sum of the encoded widths
of the wide characters before the wide cursor. -/
def EditLine.line (L : Locale) (el : EditLine) : LineInfo :=
  { under := el.under
    buffer := ct_encode_string L el.wline
    cursor := (ct_encode_string L (el.wline.take el.wcursor)).length }

/-- The function `el_line` of libedit: it returns the address of the line
information kept inside the handle, never NULL. -/
def el_line (L : Locale) (el : EditLine) : Option LineInfo :=
  some (el.line L)

/-- The function `el_deletestr(el, n)` of libedit, "delete n characters
before the cursor"; it works on the wide line, so `n` counts wide characters:
nothing happens when `n ≤ 0` or when fewer than `n` wide characters stand
before the cursor; otherwise the `n` wide characters before the cursor are
removed and the cursor moves back by `n`. -/
def el_deletestr (el : EditLine) (n : Int) : EditLine :=
  let el := { el with log := el.log ++ [Effect.el_deletestr n] }
  if n ≤ 0 then el
  else if (el.wcursor : Int) < n then el
  else
    { el with
      wline := el.wline.take (el.wcursor - n.toNat) ++ el.wline.drop el.wcursor
      wcursor := el.wcursor - n.toNat }

/-- The function `el_insertstr(el, s)` of libedit, "insert s into the line
at the cursor": the string is decoded with `mbstowcs` and nothing happens
when the decoding fails or gives the empty string; otherwise the wide
characters are inserted at the cursor and the cursor ends right after them
(the line buffer is taken to have room, or to be enlarged with success). -/
def el_insertstr (L : Locale) (el : EditLine) (s : CStr) : EditLine :=
  let el := { el with log := el.log ++ [Effect.el_insertstr s] }
  match L.mbstowcs s with
  | none => el
  | some ws =>
    if ws.length = 0 then el
    else
      { el with
        wline := el.wline.take el.wcursor ++ ws ++ el.wline.drop el.wcursor
        wcursor := el.wcursor + ws.length }

/-- The function `replace_token` (lines 167-171). -/
def replace_token (L : Locale) (el : EditLine) (token_len : Int) (new_token : CStr) :
    EditLine :=
  el_insertstr L (el_deletestr el token_len) new_token

/-! ## complete (lines 173-299) -/

/-- The editor directives of `histedit.h` that `complete` returns, kept
symbolic. -/
inductive CC
  | CC_ERROR
  | CC_REFRESH
  | CC_REDISPLAY
deriving DecidableEq, Repr

/-- How a call of `complete` ends. -/
inductive Completed
  /-- The function returns the directive `result`, with the session `el`. -/
  | returned (result : CC) (el : EditLine)
  /-- A NULL pointer is handed to `strdup` or `strlen` and the process dies;
  `el` is the session at that point. -/
  | crashed (el : EditLine)
deriving DecidableEq, Repr

/-- The Java side as seen from `complete`. -/
structure JNIEnv where
  /-- The Java method `handleCompletion(token, line, cursor)`: `none` is a
  null array. -/
  handleCompletion : CStr → CStr → Int → Option (List CStr)
  /-- Whether `GetStringUTFChars` runs out of memory on this string. -/
  outOfMemory : CStr → Bool

/-- The JNI call `GetStringUTFChars(env, js, NULL)`: NULL (`none`) on out of
memory, the UTF-8 text otherwise. -/
def GetStringUTFChars (env : JNIEnv) (js : CStr) : Option CStr :=
  if env.outOfMemory js then none else some js

/-- The function `common_first_substring` as `complete` runs it, with the
result of `GetStringUTFChars` as the JNI gives it: the outer `none` is the
crash on a NULL `first`, which the C code hands unchecked to `strdup` (line
100) and to `strlen` (line 117); `some none` is the NULL result. When every
extraction succeeds this is `common_first_substring` on the extracted
strings. -/
def common_first_substring_jni (env : JNIEnv) (strings : List CStr) :
    Nat → Nat → Option (Option CStr)
  | 0, _ => some none
  | 1, start =>
    match GetStringUTFChars env (strings.getD start []) with
    | none => none
    | some first => some (some first)
  | len + 2, start =>
    match common_first_substring_jni env strings (len + 1) (start + 1) with
    | none => none
    | some none => some none
    | some (some subcommon) =>
      match GetStringUTFChars env (strings.getD start []) with
      | none => none
      | some first =>
        let first_len := first.length
        let subcommon_len := subcommon.length
        if first_len = 0 ∨ subcommon_len = 0 then some none
        else
          let shortest := min subcommon_len first_len
          let total := common_run shortest first subcommon 0
          if total > 0 then some (some (first.take total)) else some none

/-- The scan for the beginning of the token (lines 229-237):
`for (ptr = cursor - 1; ptr > buffer; ptr--) if (isspace(*ptr)) { ptr++; break; }`.
The first argument bounds the number of iterations; the result is the final
`ptr`, as an offset from `buffer`. -/
def token_scan (li : LineInfo) : Nat → Int → Int
  | 0, ptr => ptr
  | fuel + 1, ptr =>
    if ptr > 0 then
      if isspace (li.deref ptr) then ptr + 1
      else token_scan li fuel (ptr - 1)
    else ptr

/-- The value of `ptr` after the scan: it starts at `cursor - 1`, and
`cursor` iterations are more than the loop can make. -/
def token_ptr (li : LineInfo) : Int :=
  token_scan li li.cursor ((li.cursor : Int) - 1)

/-- The value `token_len = lineInfo->cursor - ptr` (line 239). -/
def token_len (li : LineInfo) : Int :=
  (li.cursor : Int) - token_ptr li

/-- The `token_len` bytes found from `ptr` on, the ones `strncpy` reads at
line 249. -/
def token_bytes (li : LineInfo) : List Char :=
  (List.range (token_len li).toNat).map
    (fun (i : Nat) => li.deref (token_ptr li + (i : Int)))

/-- The Java string `jToken` (lines 243-253): the empty string when
`token_len == 0`, else the C string left in `token` by
`strncpy(token, ptr, token_len); token[token_len] = 0`. -/
def jToken (li : LineInfo) : CStr :=
  if token_len li = 0 then [] else c_str (token_bytes li)

/-- The Java string `jLine` (lines 219-225): the C string left in `line` by
`strncpy(line, lineInfo->buffer, line_len); line[line_len] = 0`. -/
def jLine (li : LineInfo) : CStr :=
  c_str li.buffer

/-- The function `use_first_completion` (lines 173-194). -/
def use_first_completion (L : Locale) (env : JNIEnv) (el : EditLine)
    (completions : List CStr) (token_len : Int) : CC × EditLine :=
  let js := completions.getD 0 []
  match GetStringUTFChars env js with
  | none =>
    (CC.CC_ERROR,
      { el with log := el.log ++
          [Effect.fputs_stderr "Out of memory (Java) during completion.\n"] })
  | some cs => (CC.CC_REFRESH, replace_token L el token_len cs)

/-- The function `show_completions` (lines 196-203). -/
def show_completions (el : EditLine) (completions : List CStr) : CC × EditLine :=
  (CC.CC_REDISPLAY, { el with log := el.log ++ [Effect.showCompletions completions] })

/-- The function `complete` (lines 205-299): how the call ends, with the
directive returned and the session afterwards. -/
def complete (L : Locale) (env : JNIEnv) (el : EditLine) : Completed :=
  let args : CStr × CStr × Int × Int :=
    match el_line L el with
    | some lineInfo =>
      (jToken lineInfo, jLine lineInfo, (lineInfo.cursor : Int), token_len lineInfo)
    | none => ([], [], 0, 0)
  let jToken := args.1
  let jLine := args.2.1
  let jCursor := args.2.2.1
  let token_len := args.2.2.2
  match env.handleCompletion jToken jLine jCursor with
  | none => Completed.returned CC.CC_ERROR el
  | some completions =>
    match completions.length with
    | 0 => Completed.returned CC.CC_ERROR el
    | 1 =>
      let used := use_first_completion L env el completions token_len
      Completed.returned used.1 used.2
    | len + 2 =>
      let shown := show_completions el completions
      match common_first_substring_jni env completions (len + 2) 0 with
      | none => Completed.crashed shown.2
      | some (some s) => Completed.returned shown.1 (replace_token L shown.2 token_len s)
      | some none => Completed.returned shown.1 shown.2

/-! ## Two locales -/

/-- A single-byte locale, ISO-8859-1: every wide character below 256 is its
own byte and every byte is a character. -/
def latin1 : Locale :=
  { wcrtomb := fun c => if c.toNat < 256 then [c] else []
    mbstowcs := fun s => some s }

/-- The byte of value `n`, for `n < 256`. -/
def byte (n : Nat) : Char := Char.ofNat n

/-- The call `wcrtomb` in a UTF-8 locale: the one to four bytes of the UTF-8
form of the character. -/
def utf8_wcrtomb (c : WChar) : List Char :=
  if c.toNat < 0x80 then [c]
  else if c.toNat < 0x800 then
    [byte (0xC0 + c.toNat / 64), byte (0x80 + c.toNat % 64)]
  else if c.toNat < 0x10000 then
    [byte (0xE0 + c.toNat / 4096), byte (0x80 + c.toNat / 64 % 64),
      byte (0x80 + c.toNat % 64)]
  else
    [byte (0xF0 + c.toNat / 262144), byte (0x80 + c.toNat / 4096 % 64),
      byte (0x80 + c.toNat / 64 % 64), byte (0x80 + c.toNat % 64)]

/-- Whether the byte is a UTF-8 continuation byte, `0x80` to `0xBF`. -/
def utf8_continuation (b : Char) : Bool :=
  0x80 ≤ b.toNat && b.toNat ≤ 0xBF

/-- One step of UTF-8 decoding: the character at the head of the bytes and
the number of bytes it takes, or `none` when the bytes start with an invalid
or incomplete sequence (a stray continuation byte, a lead byte without its
continuation bytes, an overlong form, a surrogate, a value past U+10FFFF). -/
def utf8_mbrtowc : List Char → Option (WChar × Nat)
  | [] => none
  | b0 :: rest =>
    if b0.toNat < 0x80 then some (b0, 1)
    else if 0xC2 ≤ b0.toNat ∧ b0.toNat ≤ 0xDF then
      match rest with
      | b1 :: _ =>
        if utf8_continuation b1 then
          some (Char.ofNat ((b0.toNat - 0xC0) * 64 + (b1.toNat - 0x80)), 2)
        else none
      | _ => none
    else if 0xE0 ≤ b0.toNat ∧ b0.toNat ≤ 0xEF then
      match rest with
      | b1 :: b2 :: _ =>
        let n := (b0.toNat - 0xE0) * 4096 + (b1.toNat - 0x80) * 64 + (b2.toNat - 0x80)
        if utf8_continuation b1 ∧ utf8_continuation b2 ∧ 0x800 ≤ n
            ∧ ¬ (0xD800 ≤ n ∧ n ≤ 0xDFFF) then
          some (Char.ofNat n, 3)
        else none
      | _ => none
    else if 0xF0 ≤ b0.toNat ∧ b0.toNat ≤ 0xF4 then
      match rest with
      | b1 :: b2 :: b3 :: _ =>
        let n := (b0.toNat - 0xF0) * 262144 + (b1.toNat - 0x80) * 4096
          + (b2.toNat - 0x80) * 64 + (b3.toNat - 0x80)
        if utf8_continuation b1 ∧ utf8_continuation b2 ∧ utf8_continuation b3
            ∧ 0x10000 ≤ n ∧ n ≤ 0x10FFFF then
          some (Char.ofNat n, 4)
        else none
      | _ => none
    else none

/-- The decoding loop of `mbstowcs` in a UTF-8 locale, character by character
until the end of the string; the first argument bounds the number of
characters. -/
def utf8_mbstowcs_loop : Nat → CStr → Option (List WChar)
  | 0, s => if s = [] then some [] else none
  | fuel + 1, s =>
    if s = [] then some []
    else
      match utf8_mbrtowc s with
      | none => none
      | some (c, k) =>
        match utf8_mbstowcs_loop fuel (s.drop k) with
        | none => none
        | some ws => some (c :: ws)

/-- The call `mbstowcs` in a UTF-8 locale; a string of `n` bytes has at most
`n` characters. -/
def utf8_mbstowcs (s : CStr) : Option (List WChar) :=
  utf8_mbstowcs_loop s.length s

/-- The UTF-8 locale. -/
def utf8 : Locale :=
  { wcrtomb := utf8_wcrtomb, mbstowcs := utf8_mbstowcs }

/-! ## The history store and n_history_get_all (lines 461-622) -/

/-- The requests to `history()` that the model needs. -/
inductive HistOp
  | H_FIRST
  | H_LAST
  | H_PREV
  | H_NEXT
  | H_ENTER (str : CStr)
  | H_SETSIZE (size : Int)
deriving DecidableEq, Repr

/-- A history store of state type `σ`, as the function `history()` of
`histedit.h`: from the store and a request, the store afterwards and the
reply, `none` for the return code `-1` and `some str` for a success with
`ev.str = str`. -/
abbrev HistoryFn (σ : Type) := σ → HistOp → σ × Option CStr

/-- How a run of `n_history_get_all` ends. -/
inductive Outcome (α : Type)
  /-- The function returns this value. -/
  | done (a : α)
  /-- One of the `assert` calls aborts the process. -/
  | assert_failed
  /-- The traversal loop has not ended within the steps allowed. -/
  | no_return
deriving DecidableEq, Repr

/-- The traversal loop of `n_history_get_all` (lines 564-584), entered with
the reply to the request just made (`H_LAST` at first, `H_PREV` after each
entry): every entry is pushed on the head of the linked list and counted. The
first argument bounds the number of replies looked at; the result is the list
(head first) and `total`. -/
def collect_loop {σ : Type} (history : HistoryFn σ) :
    Nat → σ × Option CStr → List CStr → Nat → Option (List CStr × Nat)
  | 0, _, _, _ => none
  | _ + 1, (_, none), list, total => some (list, total)
  | fuel + 1, (h, some str), list, total =>
    collect_loop history fuel (history h HistOp.H_PREV) (str :: list) (total + 1)

/-- The fill loop of `n_history_get_all` (lines 597-619) over the linked
list `entry`, with the index `i` and the Java array `result`; it gives the
array and the final `i`, or fails at `assert (i >= 0)`. A store at an index
past the end of the array changes nothing (the JNI call raises
`ArrayIndexOutOfBoundsException` and stores nothing). -/
def fill_loop : List CStr → Int → List CStr → Outcome (List CStr × Int)
  | [], i, result => Outcome.done (result, i)
  | str :: next, i, result =>
    if i - 1 ≥ 0 then fill_loop next (i - 1) (result.set (i - 1).toNat str)
    else Outcome.assert_failed

/-- The function `n_history_get_all` up to its `return`: the array returned
and the final value of `i`. `NewObjectArray(total, String, "")` is the array
of `total` empty strings. -/
def n_history_get_all_run {σ : Type} (history : HistoryFn σ) (fuel : Nat) (h : σ) :
    Outcome (List CStr × Int) :=
  match collect_loop history fuel (history h HistOp.H_LAST) [] 0 with
  | none => Outcome.no_return
  | some (list, total) => fill_loop list (total : Int) (List.replicate total [])

/-- The function `n_history_get_all` (lines 547-622): the Java array it
returns. -/
def n_history_get_all {σ : Type} (history : HistoryFn σ) (fuel : Nat) (h : σ) :
    Outcome (List CStr) :=
  match n_history_get_all_run history fuel h with
  | Outcome.done (result, _) => Outcome.done result
  | Outcome.assert_failed => Outcome.assert_failed
  | Outcome.no_return => Outcome.no_return

/-- The function `n_history_current` (lines 529-541): the reply to
`H_FIRST`, NULL (`none`) when the return code is `-1`. -/
def n_history_current {σ : Type} (history : HistoryFn σ) (h : σ) : Option CStr :=
  (history h HistOp.H_FIRST).2

/-- The function `n_history_append` (lines 505-523): the request `H_ENTER`
(`GetStringUTFChars` taken to succeed). -/
def n_history_append {σ : Type} (history : HistoryFn σ) (h : σ) (line : CStr) : σ :=
  (history h (HistOp.H_ENTER line)).1

/-- The function `n_history_set_size` (lines 478-486), on the store: the
request `H_SETSIZE` with the new size. -/
def n_history_set_size {σ : Type} (history : HistoryFn σ) (h : σ) (newSize : Int) : σ :=
  (history h (HistOp.H_SETSIZE newSize)).1

/-- The replies `v` that the traversal of `n_history_get_all` receives, in
order, when it is entered with the reply `r`: one entry per element of `v`,
each followed by the request `H_PREV`, and then the return code `-1`. -/
def Yields {σ : Type} (history : HistoryFn σ) : σ × Option CStr → List CStr → Prop
  | (_, none), [] => True
  | (h, some str), v :: vs => str = v ∧ Yields history (history h HistOp.H_PREV) vs
  | (_, none), _ :: _ => False
  | (_, some _), [] => False

/-- The default history store of libedit (`history_init`), which is not part
of this repository; it follows the interface documented in editline(3) and
the default functions of libedit's `history.c`. The events are kept in a list
in which `H_ENTER` inserts at the front, so `list` runs from the most recently
entered event to the oldest (the count `cur` of libedit is its length);
`cursor` is the position of the store's cursor in `list`; `max` is the size
set through `H_SETSIZE`. The unique mode is off, as after `n_el_init`. -/
structure History where
  /-- The events, most recently entered first. -/
  list : List CStr
  /-- The position of the cursor in `list`. -/
  cursor : Nat
  /-- The size of the store: the number of events it keeps. -/
  max : Nat
deriving DecidableEq, Repr

/-- The store right after `history_init`: no event, and the size 0, so that
it keeps nothing until a size is set. -/
def history_init : History :=
  { list := [], cursor := 0, max := 0 }

/-- The eviction loop of libedit's `H_ENTER`:
`while (h->cur > h->max && h->cur > 0) history_def_delete(h, ev, h->list.prev)`,
which drops the oldest event, at the far end of the list, as long as the
store holds more than `max` events. The first argument bounds the number of
iterations. -/
def history_evict (max : Nat) : Nat → List CStr → List CStr
  | 0, list => list
  | fuel + 1, list =>
    if list.length > max ∧ list.length > 0 then history_evict max fuel list.dropLast
    else list

/-- The function `history()` of libedit on its default store, as documented
in editline(3): `H_SETSIZE` sets the size of the store, and fails on a
negative size; `H_ENTER` adds the string as a new element, makes it current,
and then drops the oldest elements while the store holds more than its size;
`H_FIRST` moves to the first element, the most recently entered one; `H_LAST`
moves to the last element, the oldest one; `H_PREV` moves to the previous
element, which is "newer than the current one"; `H_NEXT` moves to the next
element, which is "older than the current one". A move that has no element to
go to returns `-1` and leaves the cursor in place. The event string of a
successful `H_SETSIZE` is the text "OK" that `history()` sets on entry. -/
def history : HistoryFn History
  | h, HistOp.H_SETSIZE size =>
    if size < 0 then (h, none) else ({ h with max := size.toNat }, some "OK".toList)
  | h, HistOp.H_ENTER str =>
    ({ h with list := history_evict h.max (h.list.length + 1) (str :: h.list), cursor := 0 },
      some str)
  | h, HistOp.H_FIRST =>
    match h.list with
    | [] => (h, none)
    | str :: _ => ({ h with cursor := 0 }, some str)
  | h, HistOp.H_LAST =>
    match h.list.getLast? with
    | none => (h, none)
    | some str => ({ h with cursor := h.list.length - 1 }, some str)
  | h, HistOp.H_PREV =>
    match h.cursor with
    | 0 => (h, none)
    | c + 1 =>
      match h.list.get? c with
      | none => (h, none)
      | some str => ({ h with cursor := c }, some str)
  | h, HistOp.H_NEXT =>
    match h.list.get? (h.cursor + 1) with
    | none => (h, none)
    | some str => ({ h with cursor := h.cursor + 1 }, some str)

/-- The store after the lines of `lines` were appended to `h` through
`n_history_append`, the first of `lines` first. -/
def append_all (h : History) (lines : List CStr) : History :=
  lines.foldl (n_history_append history) h

/-! ## Specification vocabulary and sample inputs -/

/-- The spec's common prefix, in its own words: "the longest string P such
that every candidate starts with P". P is a leading substring of every
candidate, and every string that is one is a leading substring of P. -/
def LongestCommonLeading (P : CStr) (candidates : List CStr) : Prop :=
  (∀ s ∈ candidates, P <+: s) ∧ ∀ q : CStr, (∀ s ∈ candidates, q <+: s) → q <+: P

/-- A Java side that answers every completion request with `candidates` (or
with a null array for `none`) and never runs out of memory. -/
def constEnv (candidates : Option (List CStr)) : JNIEnv :=
  { handleCompletion := fun _ _ _ => candidates
    outOfMemory := fun _ => false }

/-- The session with the wide line `text`, the cursor at its end, the byte 0
below the multibyte copy of the line, and an empty call log. -/
def lineAtEnd (text : String) : EditLine :=
  { under := NUL, wline := text.toList, wcursor := text.length, log := [] }

/-- The UTF-8 text of a Java string, as `GetStringUTFChars` gives it for
characters of the Basic Multilingual Plane other than U+0000. -/
def utf8Text (text : String) : CStr :=
  ct_encode_string utf8 text.toList

/-- A history store that replays the strings of its state, one per request,
and answers `-1` once they are used up. -/
def replay : HistoryFn (List CStr)
  | [], _ => ([], none)
  | str :: rest, _ => (rest, some str)

/-! ## common_first_substring: the longest common leading substring -/

/-- The comparison loop counts the common leading run: started with `total = t`
on strings of at least `k` bytes it ends at `t + m`, where the first `m ≤ k`
bytes agree and no common leading substring of at most `k` bytes is longer. -/
theorem common_run_spec (k : Nat) : ∀ (f s : CStr) (t : Nat),
    k ≤ f.length → k ≤ s.length →
    ∃ m, common_run k f s t = t + m ∧ m ≤ k ∧ f.take m = s.take m ∧
      ∀ q : CStr, q <+: f → q <+: s → q.length ≤ k → q.length ≤ m := by
  induction k with
  | zero =>
    intro f s t _ _
    exact ⟨0, by simp [common_run], le_refl _, by simp, fun q _ _ h => h⟩
  | succ k ih =>
    intro f s t hf hs
    cases f with
    | nil => simp at hf
    | cons c f =>
      cases s with
      | nil => simp at hs
      | cons d s =>
        simp only [List.length_cons, Nat.add_le_add_iff_right] at hf hs
        by_cases hcd : c = d
        · subst hcd
          obtain ⟨m, hm, hmk, htake, hmax⟩ := ih f s (t + 1) hf hs
          refine ⟨m + 1, ?_, by omega, by simp [htake], ?_⟩
          · simp [common_run, hm]; omega
          · intro q hqf hqs hqk
            cases q with
            | nil => simp
            | cons a q =>
              rw [List.cons_prefix_cons] at hqf hqs
              have := hmax q hqf.2 hqs.2 (by simpa using hqk)
              simpa using this
        · refine ⟨0, by simp [common_run, hcd], by omega, by simp, ?_⟩
          intro q hqf hqs _
          cases q with
          | nil => simp
          | cons a q =>
            rw [List.cons_prefix_cons] at hqf hqs
            exact absurd (hqf.1.symm.trans hqs.1) hcd

/-- A leading substring of `f` of at most `m` bytes is a leading substring of
the first `m` bytes of `f`. -/
theorem leading_of_take {q f : CStr} {m : Nat} (hq : q <+: f) (hm : q.length ≤ m) :
    q <+: f.take m := by
  rw [List.prefix_iff_eq_take] at hq
  rw [hq]
  exact List.take_prefix_take_left f hm

/-- On the segment `strings[start .. start + len]` of the array
`common_first_substring` computes the longest common leading substring, NULL
read as the empty string. -/
theorem common_first_substring_segment (strings : List CStr) (len : Nat) :
    ∀ start : Nat, start + (len + 1) ≤ strings.length →
      LongestCommonLeading ((common_first_substring strings (len + 1) start).getD [])
        ((strings.drop start).take (len + 1)) := by
  induction len with
  | zero =>
    intro start hstart
    have hlt : start < strings.length := by omega
    have hseg : (strings.drop start).take 1 = [strings.getD start []] := by
      rw [List.drop_eq_getElem_cons hlt, List.getD_eq_getElem _ _ hlt, List.take_succ_cons,
        List.take_zero]
    rw [hseg]
    simp [common_first_substring, LongestCommonLeading]
  | succ len ih =>
    intro start hstart
    have hlt : start < strings.length := by omega
    have hseg : (strings.drop start).take (len + 1 + 1) =
        strings.getD start [] :: (strings.drop (start + 1)).take (len + 1) := by
      rw [List.drop_eq_getElem_cons hlt, List.getD_eq_getElem _ _ hlt, List.take_succ_cons]
    rw [hseg]
    obtain ⟨hall, hmax⟩ := ih (start + 1) (by omega)
    generalize (strings.drop (start + 1)).take (len + 1) = rest at hall hmax
    simp only [common_first_substring]
    generalize strings.getD start [] = first
    cases hsub : common_first_substring strings (len + 1) (start + 1) with
    | none =>
      rw [hsub] at hall hmax
      simp only [Option.getD_none] at hall hmax ⊢
      refine ⟨fun s _ => List.nil_prefix, fun q hq => ?_⟩
      exact hmax q (fun s hs => hq s (List.mem_cons_of_mem _ hs))
    | some subcommon =>
      rw [hsub] at hall hmax
      simp only [Option.getD_some] at hall hmax ⊢
      by_cases hz : first.length = 0 ∨ subcommon.length = 0
      · simp only [hz, if_true, Option.getD_none]
        refine ⟨fun s _ => List.nil_prefix, fun q hq => ?_⟩
        have h1 : q <+: first := hq first (List.mem_cons_self _ _)
        have h2 : q <+: subcommon := hmax q (fun s hs => hq s (List.mem_cons_of_mem _ hs))
        rcases hz with hz | hz
        · rw [List.length_eq_zero] at hz; rw [hz] at h1; exact h1
        · rw [List.length_eq_zero] at hz; rw [hz] at h2; exact h2
      · simp only [hz, if_false]
        obtain ⟨m, hm, hmk, htake, hbound⟩ :=
          common_run_spec (min subcommon.length first.length) first subcommon 0
            (Nat.min_le_right _ _) (Nat.min_le_left _ _)
        rw [hm, Nat.zero_add]
        have hqm : ∀ q : CStr, (∀ s ∈ first :: rest, q <+: s) → q.length ≤ m := by
          intro q hq
          have h1 : q <+: first := hq first (List.mem_cons_self _ _)
          have h2 : q <+: subcommon := hmax q (fun s hs => hq s (List.mem_cons_of_mem _ hs))
          exact hbound q h1 h2 (Nat.le_min.mpr ⟨h2.length_le, h1.length_le⟩)
        by_cases hpos : m > 0
        · simp only [hpos, if_true, Option.getD_some]
          refine ⟨fun s hs => ?_, fun q hq => ?_⟩
          · rcases List.mem_cons.mp hs with rfl | hs
            · exact List.take_prefix _ _
            · rw [htake]
              exact List.IsPrefix.trans ( List.take_prefix _ _) (hall s hs)
          · exact leading_of_take (hq first (List.mem_cons_self _ _)) (hqm q hq)
        · simp only [hpos, if_false, Option.getD_none]
          refine ⟨fun s _ => List.nil_prefix, fun q hq => ?_⟩
          have := hqm q hq
          have hq0 : q = [] := List.length_eq_zero.mp (by omega)
          rw [hq0]

/-- Called on the whole of a non-empty array, `common_first_substring` gives
the longest common leading substring of its strings. -/
theorem common_first_substring_whole (strings : List CStr) (h : strings ≠ []) :
    LongestCommonLeading ((common_first_substring strings strings.length 0).getD [])
      strings := by
  obtain ⟨n, hn⟩ : ∃ n, strings.length = n + 1 :=
    ⟨strings.length - 1, by have := List.length_pos.mpr h; omega⟩
  have := common_first_substring_segment strings n 0 (by omega)
  rw [← hn] at this
  simpa using this

/-- The longest common leading substring of a list is unique. -/
theorem longest_common_unique {P Q : CStr} {candidates : List CStr}
    (hP : LongestCommonLeading P candidates) (hQ : LongestCommonLeading Q candidates) :
    P = Q := by
  have h1 : P <+: Q := hQ.2 P hP.1
  have h2 : Q <+: P := hP.2 Q hQ.1
  exact h1.eq_of_length_le h2.length_le

/-- For two or more strings `common_first_substring` never returns the empty
string: an empty common part is reported as NULL. -/
theorem common_first_substring_ne_nil (strings : List CStr) (len start : Nat) :
    common_first_substring strings (len + 2) start ≠ some [] := by
  simp only [common_first_substring]
  cases common_first_substring strings (len + 1) (start + 1) with
  | none => simp
  | some subcommon =>
    simp only
    split
    · simp
    · rename_i hz
      split
      · rename_i hpos
        intro h
        have h2 := Option.some.inj h
        have hlen := congrArg List.length h2
        rw [List.length_take] at hlen
        simp only [List.length_nil] at hlen
        rw [not_or] at hz
        omega
      · simp

/-- The examples of the spec: `["hello"]` gives "hello", `["hello","help"]`
gives "hel", `["hello","world"]` and `["ab","abc",""]` give NULL, read as the
empty string. -/
theorem common_first_substring_examples :
    common_first_substring ["hello".toList] 1 0 = some "hello".toList ∧
    common_first_substring ["hello".toList, "help".toList] 2 0 = some "hel".toList ∧
    common_first_substring ["hello".toList, "world".toList] 2 0 = none ∧
    common_first_substring ["ab".toList, "abc".toList, []] 3 0 = none := by
  decide

/-- C3. For every non-empty list of candidate strings,
`common_first_substring` called with `start = 0` and `len` the list length (a
NULL result read as the empty string) returns the longest common leading
substring: the result is a leading substring of every candidate, and every
string that is a leading substring of all candidates is a leading substring
of the result. -/
theorem common_first_substring_longest (strings : List CStr) (h : strings ≠ []) :
    (∀ s ∈ strings, (common_first_substring strings strings.length 0).getD [] <+: s) ∧
    ∀ p : CStr, (∀ s ∈ strings, p <+: s) →
      p <+: (common_first_substring strings strings.length 0).getD [] :=
  common_first_substring_whole strings h

/-- C3 at `["hello", "help"]`: the result "hel" is a leading substring of
"hello" and of "help", and the common leading substring "he" is a leading
substring of the result. -/
theorem common_first_substring_longest_witness :
    ["hello".toList, "help".toList] ≠ [] ∧
    (common_first_substring ["hello".toList, "help".toList] 2 0).getD [] <+: "hello".toList ∧
    (common_first_substring ["hello".toList, "help".toList] 2 0).getD [] <+: "help".toList ∧
    "he".toList <+: (common_first_substring ["hello".toList, "help".toList] 2 0).getD [] :=
  ⟨by decide,
    (common_first_substring_longest ["hello".toList, "help".toList] (by decide)).1 _
      (by simp),
    (common_first_substring_longest ["hello".toList, "help".toList] (by decide)).1 _
      (by simp),
    (common_first_substring_longest ["hello".toList, "help".toList] (by decide)).2 _
      (by decide)⟩

/-! ## The token scan of complete -/

/-- Started at an offset `ptr ≥ 0` the scan ends at an offset between `0`
and `ptr + 1`. -/
theorem token_scan_bounds (li : LineInfo) (fuel : Nat) :
    ∀ ptr : Int, 0 ≤ ptr → 0 ≤ token_scan li fuel ptr ∧ token_scan li fuel ptr ≤ ptr + 1 := by
  induction fuel with
  | zero => intro ptr h; simp [token_scan]; omega
  | succ fuel ih =>
    intro ptr h
    unfold token_scan
    by_cases hp : ptr > 0
    · by_cases hs : isspace (li.deref ptr) = true
      · simp only [hp, hs, if_true]; omega
      · simp only [hp, hs, if_true, if_false]
        have := ih (ptr - 1) (by omega)
        omega
    · simp only [hp, if_false]; omega

/-- The iteration bound never cuts the scan short: any two bounds of at least
`ptr` give the same result. -/
theorem token_scan_fuel (li : LineInfo) (fuel : Nat) :
    ∀ (ptr : Int) (more : Nat), ptr ≤ fuel →
      token_scan li (fuel + more) ptr = token_scan li fuel ptr := by
  induction fuel with
  | zero =>
    intro ptr more h
    cases more with
    | zero => rfl
    | succ more =>
      have hp : ¬ ptr > 0 := by simp at h; omega
      simp [token_scan, hp]
  | succ fuel ih =>
    intro ptr more h
    rw [show fuel + 1 + more = (fuel + more) + 1 by omega]
    unfold token_scan
    by_cases hp : ptr > 0
    · by_cases hs : isspace (li.deref ptr) = true
      · simp only [hp, hs, if_true]
      · simp only [hp, hs, if_true, if_false]
        exact ih (ptr - 1) more (by push_cast at h; omega)
    · simp only [hp, if_false]

/-- Every offset from the token start up to the scan's starting point is free
of whitespace, the offset `0` apart: the scan never tests `buffer[0]`. -/
theorem token_scan_no_space (li : LineInfo) (fuel : Nat) :
    ∀ ptr : Int, 0 ≤ ptr → ptr ≤ fuel →
      ∀ i : Int, token_scan li fuel ptr ≤ i → i ≤ ptr → 1 ≤ i →
        isspace (li.deref i) = false := by
  induction fuel with
  | zero =>
    intro ptr h0 hf i hi1 hi2 hi3
    simp at hf
    omega
  | succ fuel ih =>
    intro ptr h0 hf i hi1 hi2 hi3
    unfold token_scan at hi1
    by_cases hp : ptr > 0
    · by_cases hs : isspace (li.deref ptr) = true
      · simp only [hp, hs, if_true] at hi1; omega
      · simp only [hp, hs, if_true, if_false] at hi1
        by_cases hip : i = ptr
        · subst hip; simpa using hs
        · exact ih (ptr - 1) (by omega) (by push_cast at hf; omega) i hi1 (by omega) hi3
    · omega

/-- With the cursor past the start of the line, the token lies inside the
line before the cursor and has no whitespace after the first byte of the
line. -/
theorem token_after_line_start (li : LineInfo) (hpos : 1 ≤ li.cursor) :
    0 ≤ token_ptr li ∧ 0 ≤ token_len li ∧ token_len li ≤ li.cursor ∧
    ∀ i : Int, token_ptr li ≤ i → i < li.cursor → 1 ≤ i → isspace (li.deref i) = false := by
  have hb := token_scan_bounds li li.cursor ((li.cursor : Int) - 1) (by omega)
  refine ⟨hb.1, ?_, ?_, ?_⟩
  · simp only [token_len, token_ptr]; omega
  · simp only [token_len, token_ptr]; omega
  · intro i h1 h2 h3
    exact token_scan_no_space li li.cursor ((li.cursor : Int) - 1) (by omega) (by omega) i h1
      (by omega) h3

/-- Either `0 ≤ token_len ≤ cursor`, or the cursor is at `0` and
`token_len = 1`. -/
theorem token_len_range (li : LineInfo) :
    (0 ≤ token_len li ∧ token_len li ≤ li.cursor) ∨ (li.cursor = 0 ∧ token_len li = 1) := by
  rcases li with ⟨under, buffer, cursor⟩
  cases cursor with
  | zero => right; exact ⟨rfl, rfl⟩
  | succ c =>
    left
    have := token_after_line_start ⟨under, buffer, c + 1⟩ (by simp)
    exact ⟨this.2.1, this.2.2.1⟩

/-- With the cursor at offset `0` of any line, the scan leaves `ptr` at
`buffer - 1`, so `token_len` is `1` and the one byte read is the byte below
the buffer. -/
theorem token_at_cursor_zero (under : Char) (buffer : List Char) :
    token_ptr ⟨under, buffer, 0⟩ = -1 ∧ token_len ⟨under, buffer, 0⟩ = 1 ∧
    token_bytes ⟨under, buffer, 0⟩ = [under] :=
  ⟨rfl, rfl, rfl⟩

/-- C1, at the failing input. On the line " ab" with the cursor at offset 3
the scan stops at `ptr = buffer` without testing `buffer[0]`: `token_len` is
3, the token is the substring `[cursor - token_len, cursor) = [0, 3)`, that is
" ab", and its first character is a space, for which `isspace` holds. -/
theorem token_contains_whitespace :
    token_ptr ⟨'x', " ab".toList, 3⟩ = 0 ∧
    token_len ⟨'x', " ab".toList, 3⟩ = 3 ∧
    ((" ab".toList.drop ((3 : Int) - token_len ⟨'x', " ab".toList, 3⟩).toNat).take
      (token_len ⟨'x', " ab".toList, 3⟩).toNat) = " ab".toList ∧
    jToken ⟨'x', " ab".toList, 3⟩ = " ab".toList ∧
    (jToken ⟨'x', " ab".toList, 3⟩).head? = some ' ' ∧
    isspace ' ' = true ∧
    (∃ c ∈ jToken ⟨'x', " ab".toList, 3⟩, isspace c = true) := by
  decide

/-- C2, at the failing input. On the empty line with the cursor at offset 0,
`token_len` is 1, which exceeds the cursor offset 0; the token start
`cursor - token_len` is `-1`, not 0; and the token handed to Java is the byte
below the buffer, here `x`, not the empty string. -/
theorem token_len_exceeds_cursor :
    token_len ⟨'x', [], 0⟩ = 1 ∧
    ¬ (token_len ⟨'x', [], 0⟩ ≤ (((⟨'x', [], 0⟩ : LineInfo).cursor : Nat) : Int)) ∧
    (((⟨'x', [], 0⟩ : LineInfo).cursor : Nat) : Int) - token_len ⟨'x', [], 0⟩ = -1 ∧
    jToken ⟨'x', [], 0⟩ = ['x'] := by
  decide

/-! ## The prompt -/

/-- A prompt of fewer than 127 bytes is read back whole, whatever the buffer
held before. -/
theorem get_prompt_short (data : jEditLineData) (s : CStr)
    (hs : s.length < PROMPT_MAX - 1) (hnul : NUL ∉ s) :
    get_prompt (set_prompt data s) = some s := by
  have hlen : s.length < 127 := hs
  have hrep : List.replicate (127 - s.length) NUL =
      NUL :: List.replicate (127 - s.length - 1) NUL := by
    rw [← List.replicate_succ]
    congr 1
    omega
  have hprompt : (set_prompt data s).prompt =
      s ++ NUL :: (List.replicate (127 - s.length - 1) NUL ++ data.prompt.drop 127) := by
    simp only [set_prompt, strncpy, PROMPT_MAX]
    rw [List.take_of_length_le (by omega), hrep]
    simp
  have hmem : NUL ∈ (set_prompt data s).prompt := by
    rw [hprompt]; simp
  have hall : ∀ c ∈ s, (c != NUL) = true := by
    intro c hc
    simp only [bne_iff_ne, ne_eq]
    rintro rfl
    exact hnul hc
  simp only [get_prompt, hmem, if_true, c_str]
  rw [hprompt, List.takeWhile_append_of_pos hall]
  simp

set_option maxRecDepth 100000 in
/-- C8, at the failing input. `n_el_init` leaves the 128 prompt bytes as
`malloc` returned them, here 128 bytes `x`; `set_prompt` with a prompt of 127
bytes `a` writes bytes 0 to 126 and leaves byte 127 alone. The buffer, still
128 bytes, then holds no NUL, so reading the prompt back runs past the
buffer; the same holds right after `n_el_init`, before any `set_prompt`. -/
theorem prompt_not_terminated :
    (set_prompt (n_el_init (List.replicate 128 'x'))
      (List.replicate 127 'a')).prompt.length = 128 ∧
    NUL ∉ (set_prompt (n_el_init (List.replicate 128 'x')) (List.replicate 127 'a')).prompt ∧
    get_prompt (set_prompt (n_el_init (List.replicate 128 'x')) (List.replicate 127 'a'))
      = none ∧
    get_prompt (n_el_init (List.replicate 128 'x')) = none := by
  decide

/-! ## common_first_substring under the JNI -/

/-- When no string of the array runs out of memory in `GetStringUTFChars`,
the function as `complete` runs it does not crash and gives the result of
`common_first_substring` on the extracted strings. -/
theorem common_first_substring_jni_eq (env : JNIEnv) (strings : List CStr)
    (hok : ∀ s ∈ strings, env.outOfMemory s = false) (len : Nat) :
    ∀ start : Nat, start + len ≤ strings.length →
      common_first_substring_jni env strings len start =
        some (common_first_substring strings len start) := by
  induction len with
  | zero => intro start _; rfl
  | succ len ih =>
    intro start hstart
    have hlt : start < strings.length := by omega
    have hget : GetStringUTFChars env (strings.getD start []) =
        some (strings.getD start []) := by
      have hmem : strings.getD start [] ∈ strings := by
        rw [List.getD_eq_getElem _ _ hlt]
        exact List.getElem_mem hlt
      unfold GetStringUTFChars
      rw [hok _ hmem]
      rfl
    cases len with
    | zero => simp only [common_first_substring_jni, common_first_substring, hget]
    | succ len =>
      have hrec := ih (start + 1) (by omega)
      simp only [common_first_substring_jni, common_first_substring, hrec]
      cases common_first_substring strings (len + 1) (start + 1) with
      | none => rfl
      | some subcommon =>
        simp only [hget]
        split <;> (try split) <;> rfl

/-! ## complete: the branches without an edit -/

/-- C7. For every line and cursor, if the candidate producer returns a null
result or an empty candidate list, `complete` returns `CC_ERROR` and leaves
the session as it was: line text and cursor unchanged, and no call logged, so
no delete, no insert and no display. -/
theorem complete_no_candidates (L : Locale) (env : JNIEnv) (el : EditLine)
    (h : env.handleCompletion (jToken (el.line L)) (jLine (el.line L))
           ((el.line L).cursor : Int) = none ∨
         env.handleCompletion (jToken (el.line L)) (jLine (el.line L))
           ((el.line L).cursor : Int) = some []) :
    complete L env el = Completed.returned CC.CC_ERROR el := by
  rcases h with h | h
  · simp [complete, el_line, h]
  · simp [complete, el_line, h]

/-- C7 on the line "git ch": with a null result, and with an empty list,
`complete` returns `CC_ERROR` and the session is unchanged. -/
theorem complete_no_candidates_witness :
    complete latin1 (constEnv none) (lineAtEnd "git ch") =
      Completed.returned CC.CC_ERROR (lineAtEnd "git ch") ∧
    complete latin1 (constEnv (some [])) (lineAtEnd "git ch") =
      Completed.returned CC.CC_ERROR (lineAtEnd "git ch") :=
  ⟨complete_no_candidates latin1 (constEnv none) (lineAtEnd "git ch") (Or.inl rfl),
   complete_no_candidates latin1 (constEnv (some [])) (lineAtEnd "git ch") (Or.inr rfl)⟩

/-! ## complete: the scenarios of the spec, in the UTF-8 locale -/

/-- The first scenario of the spec: on the line "git ch" with the single
candidate "checkout", `complete` returns `CC_REFRESH` and the line becomes
"git checkout" with the cursor at its end. -/
theorem complete_git_checkout :
    complete utf8 (constEnv (some [utf8Text "checkout"])) (lineAtEnd "git ch") =
      Completed.returned CC.CC_REFRESH
        { under := NUL, wline := "git checkout".toList, wcursor := 12,
          log := [Effect.el_deletestr 2, Effect.el_insertstr (utf8Text "checkout")] } := by
  decide

/-- The second scenario of the spec: on the line "git ch" with the candidates
"checkout" and "cherry-pick", whose longest common leading substring is "che",
`complete` shows both, then deletes 2 characters and inserts "che": it returns
`CC_REDISPLAY` and the line becomes "git che" with the cursor at 7. -/
theorem complete_git_che :
    complete utf8 (constEnv (some [utf8Text "checkout", utf8Text "cherry-pick"]))
        (lineAtEnd "git ch") =
      Completed.returned CC.CC_REDISPLAY
        { under := NUL, wline := "git che".toList, wcursor := 7,
          log := [Effect.showCompletions [utf8Text "checkout", utf8Text "cherry-pick"],
            Effect.el_deletestr 2, Effect.el_insertstr (utf8Text "che")] } := by
  decide

/-- When `GetStringUTFChars` runs out of memory in the branch for two or more
candidates, `complete` shows the candidates and then crashes, where the
branch for one candidate reports the failure and returns `CC_ERROR`. -/
theorem complete_out_of_memory :
    complete utf8
        { handleCompletion := fun _ _ _ => some [utf8Text "checkout", utf8Text "cherry-pick"]
          outOfMemory := fun _ => true }
        (lineAtEnd "git ch") =
      Completed.crashed
        { under := NUL, wline := "git ch".toList, wcursor := 6,
          log := [Effect.showCompletions [utf8Text "checkout", utf8Text "cherry-pick"]] } ∧
    complete utf8
        { handleCompletion := fun _ _ _ => some [utf8Text "checkout"]
          outOfMemory := fun _ => true }
        (lineAtEnd "git ch") =
      Completed.returned CC.CC_ERROR
        { under := NUL, wline := "git ch".toList, wcursor := 6,
          log := [Effect.fputs_stderr "Out of memory (Java) during completion.\n"] } := by
  decide

/-! ## complete: multibyte text -/

/-- C5, at the failing input. In the UTF-8 locale the line "é" is one wide
character and two bytes: `el_line` gives a cursor offset of 2 and `token_len`
is 2. With the single candidate "été", `complete` asks `el_deletestr` for 2
characters, which are not there, so nothing is deleted, and then inserts the
candidate: it returns `CC_REFRESH` and the line is "éété" with the cursor at
4, where the claim has the token replaced, that is the line "été" with the
cursor at 3. -/
theorem complete_single_multibyte_token :
    ((lineAtEnd "é").line utf8).buffer = [byte 0xC3, byte 0xA9] ∧
    ((lineAtEnd "é").line utf8).cursor = 2 ∧
    token_len ((lineAtEnd "é").line utf8) = 2 ∧
    jToken ((lineAtEnd "é").line utf8) = utf8Text "é" ∧
    complete utf8 (constEnv (some [utf8Text "été"])) (lineAtEnd "é") =
      Completed.returned CC.CC_REFRESH
        { under := NUL, wline := "éété".toList, wcursor := 4,
          log := [Effect.el_deletestr 2, Effect.el_insertstr (utf8Text "été")] } ∧
    "éété".toList ≠ "été".toList := by
  decide

/-- C6, at the failing input. On the line "git ch" with the candidates
"chéri" and "chère", the byte-wise common leading substring is "ch" followed
by the byte `0xC3`, the first byte of both "é" and "è"; it is not empty.
`complete` shows the candidates, deletes the 2 characters of the token and
hands the three bytes to `el_insertstr`, which cannot decode them and inserts
nothing: it returns `CC_REDISPLAY` and the line is "git " with the cursor at
4, where the claim has the token region replaced by the common prefix and the
cursor right after it. -/
theorem complete_many_undecodable_common :
    common_first_substring [utf8Text "chéri", utf8Text "chère"] 2 0 =
      some ['c', 'h', byte 0xC3] ∧
    LongestCommonLeading ['c', 'h', byte 0xC3] [utf8Text "chéri", utf8Text "chère"] ∧
    utf8.mbstowcs ['c', 'h', byte 0xC3] = none ∧
    token_len ((lineAtEnd "git ch").line utf8) = 2 ∧
    complete utf8 (constEnv (some [utf8Text "chéri", utf8Text "chère"])) (lineAtEnd "git ch") =
      Completed.returned CC.CC_REDISPLAY
        { under := NUL, wline := "git ".toList, wcursor := 4,
          log := [Effect.showCompletions [utf8Text "chéri", utf8Text "chère"],
            Effect.el_deletestr 2, Effect.el_insertstr ['c', 'h', byte 0xC3]] } := by
  refine ⟨by decide, ?_, by decide, by decide, by decide⟩
  have h := common_first_substring_whole [utf8Text "chéri", utf8Text "chère"] (by decide)
  have hv : (common_first_substring [utf8Text "chéri", utf8Text "chère"]
      [utf8Text "chéri", utf8Text "chère"].length 0).getD [] = ['c', 'h', byte 0xC3] := by
    decide
  rw [hv] at h
  exact h

/-- C10, at the failing input. On the line "a" the token is "a"; the
candidates "aé" and "aè" both start with it. Their byte-wise common leading
substring, "a" followed by the byte `0xC3`, starts with the token too, but
`el_insertstr` cannot decode it: after `complete` the typed "a" is gone, the
line is empty and the text before the cursor no longer starts with the text
that was before the cursor. -/
theorem complete_loses_typed_text :
    jToken ((lineAtEnd "a").line utf8) = ['a'] ∧
    (∀ s ∈ [utf8Text "aé", utf8Text "aè"], jToken ((lineAtEnd "a").line utf8) <+: s) ∧
    common_first_substring [utf8Text "aé", utf8Text "aè"] 2 0 = some ['a', byte 0xC3] ∧
    jToken ((lineAtEnd "a").line utf8) <+: ['a', byte 0xC3] ∧
    complete utf8 (constEnv (some [utf8Text "aé", utf8Text "aè"])) (lineAtEnd "a") =
      Completed.returned CC.CC_REDISPLAY
        { under := NUL, wline := [], wcursor := 0,
          log := [Effect.showCompletions [utf8Text "aé", utf8Text "aè"],
            Effect.el_deletestr 1, Effect.el_insertstr ['a', byte 0xC3]] } ∧
    ¬ ((lineAtEnd "a").wline.take (lineAtEnd "a").wcursor <+: ([] : List WChar)) := by
  decide

/-! ## complete: single-byte text before the cursor -/

/-- A wide string whose characters all encode to one byte has as many bytes
as characters. -/
theorem ct_encode_string_length (L : Locale) (ws : List WChar)
    (h : ∀ c ∈ ws, (L.wcrtomb c).length = 1) :
    (ct_encode_string L ws).length = ws.length := by
  induction ws with
  | nil => rfl
  | cons c ws ih =>
    simp only [ct_encode_string, List.length_append, List.length_cons]
    rw [h c (List.mem_cons_self _ _), ih (fun d hd => h d (List.mem_cons_of_mem _ hd))]
    omega

/-- When every character before the cursor encodes to one byte, the byte
offset of the cursor that `el_line` exposes is the wide cursor. -/
theorem line_cursor_eq (L : Locale) (el : EditLine)
    (hcur : el.wcursor ≤ el.wline.length)
    (hone : ∀ c ∈ el.wline.take el.wcursor, (L.wcrtomb c).length = 1) :
    (el.line L).cursor = el.wcursor := by
  simp only [EditLine.line]
  rw [ct_encode_string_length L _ hone, List.length_take]
  omega

/-- The effect of `replace_token` on the wide line, for a cursor inside the
line, a length `n` between `0` and the wide cursor (or `n = 1` at cursor `0`)
and a string that `mbstowcs` decodes to `ws`: the `n` wide characters before
the cursor give way to `ws`, the cursor ends right after `ws`, and the two
calls are logged. -/
theorem replace_token_wline (L : Locale) (el : EditLine) (n : Int) (s : CStr)
    (ws : List WChar)
    (hcur : el.wcursor ≤ el.wline.length)
    (hn : (0 ≤ n ∧ n ≤ el.wcursor) ∨ (el.wcursor = 0 ∧ n = 1))
    (hdec : L.mbstowcs s = some ws) :
    (replace_token L el n s).wline =
        el.wline.take ((el.wcursor : Int) - n).toNat ++ ws ++ el.wline.drop el.wcursor ∧
    (replace_token L el n s).wcursor = ((el.wcursor : Int) - n).toNat + ws.length ∧
    (replace_token L el n s).under = el.under ∧
    (replace_token L el n s).log =
      el.log ++ [Effect.el_deletestr n, Effect.el_insertstr s] := by
  rcases el with ⟨under, wline, wcursor, log⟩
  simp only at hcur hn
  rcases hn with ⟨h0, hle⟩ | ⟨hc, h1⟩
  · obtain ⟨k, rfl⟩ := Int.eq_ofNat_of_zero_le h0
    have hk : k ≤ wcursor := by omega
    have e1 : ((wcursor : Int) - (k : Int)).toNat = wcursor - k := by omega
    by_cases hk0 : k = 0
    · subst hk0
      by_cases hs : ws = []
      · subst hs
        simp [replace_token, el_deletestr, el_insertstr, hdec]
      · simp [replace_token, el_deletestr, el_insertstr, hdec, hs]
    · have hnle : ¬ ((k : Int) ≤ 0) := by omega
      have hnlt : ¬ ((wcursor : Int) < (k : Int)) := by omega
      have htake : List.take (wcursor - k)
          (List.take (wcursor - k) wline ++ List.drop wcursor wline) =
          List.take (wcursor - k) wline := by
        rw [List.take_append_of_le_length (by rw [List.length_take]; omega)]
        simp
      have hdrop : List.drop (wcursor - k)
          (List.take (wcursor - k) wline ++ List.drop wcursor wline) =
          List.drop wcursor wline := by
        rw [List.drop_append_of_le_length (by rw [List.length_take]; omega)]
        rw [List.drop_eq_nil_of_le (by rw [List.length_take]; omega)]
        simp
      by_cases hs : ws = []
      · subst hs
        simp [replace_token, el_deletestr, el_insertstr, hdec, hnle, hnlt, e1]
      · simp [replace_token, el_deletestr, el_insertstr, hdec, hnle, hnlt, e1, hs, htake,
          hdrop]
  · subst hc; subst h1
    by_cases hs : ws = []
    · subst hs
      simp [replace_token, el_deletestr, el_insertstr, hdec]
    · simp [replace_token, el_deletestr, el_insertstr, hdec, hs]

/-- The branch of `complete` for one candidate, on single-byte text: for
every locale, every line whose characters before the cursor each encode to
one byte, and a single candidate `s` that is extracted and that `mbstowcs`
decodes to `ws`, `complete` returns `CC_REFRESH`, the `token_len` characters
before the cursor give way to `ws` and the cursor ends right after `ws`. When
the candidate cannot be extracted, `complete` returns `CC_ERROR` and the line
and cursor are unchanged, for every line. -/
theorem complete_single_on_single_byte_text (L : Locale) (env : JNIEnv) (el : EditLine)
    (s : CStr)
    (hcur : el.wcursor ≤ el.wline.length)
    (h : env.handleCompletion (jToken (el.line L)) (jLine (el.line L))
      ((el.line L).cursor : Int) = some [s]) :
    (∀ ws : List WChar, env.outOfMemory s = false → L.mbstowcs s = some ws →
      (∀ c ∈ el.wline.take el.wcursor, (L.wcrtomb c).length = 1) →
      ∃ el2, complete L env el = Completed.returned CC.CC_REFRESH el2 ∧
        el2.wline = el.wline.take ((el.wcursor : Int) - token_len (el.line L)).toNat ++ ws
          ++ el.wline.drop el.wcursor ∧
        el2.wcursor = ((el.wcursor : Int) - token_len (el.line L)).toNat + ws.length) ∧
    (env.outOfMemory s = true →
      ∃ el2, complete L env el = Completed.returned CC.CC_ERROR el2 ∧
        el2.wline = el.wline ∧ el2.wcursor = el.wcursor) := by
  constructor
  · intro ws hok hdec hone
    have hbc := line_cursor_eq L el hcur hone
    have hrange := token_len_range (el.line L)
    rw [hbc] at hrange
    have hrep := replace_token_wline L el (token_len (el.line L)) s ws hcur hrange hdec
    refine ⟨replace_token L el (token_len (el.line L)) s, ?_, hrep.1, hrep.2.1⟩
    simp [complete, el_line, h, use_first_completion, GetStringUTFChars, hok]
  · intro hoom
    refine ⟨{ el with log := el.log ++
      [Effect.fputs_stderr "Out of memory (Java) during completion.\n"] }, ?_, rfl, rfl⟩
    simp [complete, el_line, h, use_first_completion, GetStringUTFChars, hoom]

/-- The branch of `complete` for two or more candidates, on single-byte text:
for every locale, every line whose characters before the cursor each encode
to one byte, and two or more candidates that are all extracted, with `P` their
longest common leading substring: `complete` returns `CC_REDISPLAY`, and the
display of the full list is its first call; if `P` is empty it is the only
call and the line and cursor are unchanged; if `P` is not empty and `mbstowcs`
decodes it to `wP`, the calls that follow are the delete of `token_len`
characters and the insert of `P`, the `token_len` characters before the
cursor give way to `wP` and the cursor ends right after `wP`. -/
theorem complete_many_on_single_byte_text (L : Locale) (env : JNIEnv) (el : EditLine)
    (candidates : List CStr) (P : CStr)
    (hcur : el.wcursor ≤ el.wline.length)
    (h : env.handleCompletion (jToken (el.line L)) (jLine (el.line L))
      ((el.line L).cursor : Int) = some candidates)
    (hlen : 2 ≤ candidates.length)
    (hok : ∀ s ∈ candidates, env.outOfMemory s = false)
    (hone : ∀ c ∈ el.wline.take el.wcursor, (L.wcrtomb c).length = 1)
    (hP : LongestCommonLeading P candidates) :
    (P = [] →
      complete L env el = Completed.returned CC.CC_REDISPLAY
        { el with log := el.log ++ [Effect.showCompletions candidates] }) ∧
    (∀ wP : List WChar, P ≠ [] → L.mbstowcs P = some wP →
      ∃ el2, complete L env el = Completed.returned CC.CC_REDISPLAY el2 ∧
        el2.log = el.log ++ [Effect.showCompletions candidates,
          Effect.el_deletestr (token_len (el.line L)), Effect.el_insertstr P] ∧
        el2.wline = el.wline.take ((el.wcursor : Int) - token_len (el.line L)).toNat ++ wP
          ++ el.wline.drop el.wcursor ∧
        el2.wcursor = ((el.wcursor : Int) - token_len (el.line L)).toNat + wP.length) := by
  obtain ⟨n, hn⟩ : ∃ n, candidates.length = n + 2 := ⟨candidates.length - 2, by omega⟩
  have hne : candidates ≠ [] := by
    intro h0; rw [h0] at hlen; simp at hlen
  have hcfs := longest_common_unique (common_first_substring_whole candidates hne) hP
  rw [hn] at hcfs
  have hjni := common_first_substring_jni_eq env candidates hok (n + 2) 0 (by omega)
  have hbc := line_cursor_eq L el hcur hone
  have hrange := token_len_range (el.line L)
  rw [hbc] at hrange
  cases hsub : common_first_substring candidates (n + 2) 0 with
  | none =>
    rw [hsub] at hcfs hjni
    simp only [Option.getD_none] at hcfs
    have hc : complete L env el = Completed.returned CC.CC_REDISPLAY
        { el with log := el.log ++ [Effect.showCompletions candidates] } := by
      simp [complete, el_line, h, hn, hjni, show_completions]
    exact ⟨fun _ => hc, fun wP hPne _ => absurd hcfs.symm hPne⟩
  | some s =>
    rw [hsub] at hcfs hjni
    simp only [Option.getD_some] at hcfs
    subst hcfs
    have hsne : s ≠ [] := by
      intro h0
      rw [h0] at hsub
      exact common_first_substring_ne_nil candidates n 0 hsub
    have hc : complete L env el = Completed.returned CC.CC_REDISPLAY
        (replace_token L (show_completions el candidates).2 (token_len (el.line L)) s) := by
      simp [complete, el_line, h, hn, hjni, show_completions]
    refine ⟨fun h0 => absurd h0 hsne, fun wP _ hdec => ?_⟩
    have hrep := replace_token_wline L (show_completions el candidates).2
      (token_len (el.line L)) s wP hcur hrange hdec
    refine ⟨_, hc, ?_, hrep.1, hrep.2.1⟩
    rw [hrep.2.2.2]
    simp [show_completions]

/-! ## n_history_get_all -/

/-- The traversal loop pushes the replies it receives: entered with a reply
stream that yields `v`, and allowed more than `v.length` replies, it ends with
the list `v` reversed on top of the list it started with, and with `total`
raised by `v.length`. -/
theorem collect_loop_yields {σ : Type} (history : HistoryFn σ) :
    ∀ (v : List CStr) (r : σ × Option CStr) (list : List CStr) (total fuel : Nat),
      Yields history r v → v.length < fuel →
      collect_loop history fuel r list total = some (v.reverse ++ list, total + v.length) := by
  intro v
  induction v with
  | nil =>
    intro r list total fuel hy hf
    obtain ⟨h, o⟩ := r
    cases o with
    | none =>
      cases fuel with
      | zero => simp at hf
      | succ fuel => simp [collect_loop]
    | some str => simp [Yields] at hy
  | cons x v ih =>
    intro r list total fuel hy hf
    obtain ⟨h, o⟩ := r
    cases o with
    | none => simp [Yields] at hy
    | some str =>
      cases fuel with
      | zero => simp at hf
      | succ fuel =>
        simp only [Yields] at hy
        obtain ⟨rfl, hy⟩ := hy
        simp only [collect_loop]
        rw [ih _ (str :: list) (total + 1) fuel hy (by simpa using hf)]
        simp
        omega

/-- The fill loop, started at `i = l.length` on an array of at least that
many slots, never fails its assertion, ends with `i = 0`, and leaves the list
reversed in the first `l.length` slots. -/
theorem fill_loop_reverse : ∀ (l result : List CStr), l.length ≤ result.length →
    fill_loop l (l.length : Int) result =
      Outcome.done (l.reverse ++ result.drop l.length, 0) := by
  intro l
  induction l with
  | nil => intro result _; simp [fill_loop]
  | cons x l ih =>
    intro result hlen
    simp only [List.length_cons] at hlen
    have hi : ((List.length (x :: l) : Nat) : Int) - 1 = (l.length : Int) := by
      simp
    have hge : (l.length : Int) ≥ 0 := by omega
    simp only [fill_loop, hi, hge, if_true, Int.toNat_ofNat]
    rw [ih (result.set l.length x) (by simp; omega)]
    have hdrop : (result.set l.length x).drop l.length = x :: result.drop (l.length + 1) := by
      rw [List.set_eq_take_append_cons_drop]
      simp only [show l.length < result.length by omega, if_true]
      rw [List.drop_append_of_le_length (by rw [List.length_take]; omega)]
      rw [List.drop_eq_nil_of_le (by rw [List.length_take]; omega)]
      simp
    rw [hdrop]
    simp

/-- When the traversal yields `v`, `n_history_get_all` returns the array `v`
and its fill index ends at 0. -/
theorem get_all_run_of_yields {σ : Type} (history : HistoryFn σ) (fuel : Nat) (h : σ)
    (v : List CStr) (hy : Yields history (history h HistOp.H_LAST) v) (hf : v.length < fuel) :
    n_history_get_all_run history fuel h = Outcome.done (v, 0) := by
  have hc := collect_loop_yields history v (history h HistOp.H_LAST) [] 0 fuel hy hf
  simp only [n_history_get_all_run, hc, List.append_nil, Nat.zero_add]
  have := fill_loop_reverse v.reverse (List.replicate v.length []) (by simp)
  simp only [List.length_reverse, List.reverse_reverse] at this
  rw [this]
  simp

/-- C9. For every store and every finite sequence `v` that its traversal
yields in that order (start at `H_LAST`, step with `H_PREV` until `-1`), the
push-on-head list build and the backwards array fill cancel out: the loop
ends, no assertion fails, the fill index ends at exactly 0, and the array
returned is `v` itself, so its length is that of `v` and its element `k` is
`v[k]`, none left at the default; for the empty sequence the result is the
empty array. -/
theorem history_get_all_in_traversal_order {σ : Type} (history : HistoryFn σ) (fuel : Nat)
    (h : σ) (v : List CStr)
    (hy : Yields history (history h HistOp.H_LAST) v) (hf : v.length < fuel) :
    n_history_get_all_run history fuel h = Outcome.done (v, 0) ∧
    n_history_get_all history fuel h = Outcome.done v ∧
    (v = [] → n_history_get_all history fuel h = Outcome.done []) := by
  have := get_all_run_of_yields history fuel h v hy hf
  have h2 : n_history_get_all history fuel h = Outcome.done v := by
    simp [n_history_get_all, this]
  exact ⟨this, h2, fun hv => by rw [h2, hv]⟩

/-- C9 on a store that yields "a", "b", "c" in that order: the array returned
is "a", "b", "c" and the fill index ends at 0. -/
theorem history_get_all_in_traversal_order_witness :
    Yields replay (replay ["a".toList, "b".toList, "c".toList] HistOp.H_LAST)
      ["a".toList, "b".toList, "c".toList] ∧
    n_history_get_all_run replay 4 ["a".toList, "b".toList, "c".toList] =
      Outcome.done (["a".toList, "b".toList, "c".toList], 0) ∧
    n_history_get_all replay 4 ["a".toList, "b".toList, "c".toList] =
      Outcome.done ["a".toList, "b".toList, "c".toList] :=
  have hy : Yields replay (replay ["a".toList, "b".toList, "c".toList] HistOp.H_LAST)
      ["a".toList, "b".toList, "c".toList] := ⟨rfl, rfl, rfl, trivial⟩
  have hw := history_get_all_in_traversal_order replay 4 ["a".toList, "b".toList, "c".toList]
    ["a".toList, "b".toList, "c".toList] hy (by decide)
  ⟨hy, hw.1, hw.2.1⟩

/-- The eviction loop leaves a list alone that is within the size. -/
theorem history_evict_within (max fuel : Nat) (list : List CStr) (h : list.length ≤ max) :
    history_evict max fuel list = list := by
  cases fuel with
  | zero => rfl
  | succ fuel =>
    have hn : ¬ (list.length > max ∧ list.length > 0) := by omega
    simp only [history_evict, hn, if_false]

/-- Appending lines to the default store puts them in front of its list, the
last line appended first, as long as the size of the store is not exceeded;
the size stays what it was. -/
theorem append_all_list (lines : List CStr) : ∀ h : History,
    h.list.length + lines.length ≤ h.max →
    (append_all h lines).list = lines.reverse ++ h.list ∧ (append_all h lines).max = h.max := by
  induction lines with
  | nil => intro h _; simp [append_all]
  | cons x lines ih =>
    intro h hle
    simp only [List.length_cons] at hle
    have hstep : append_all h (x :: lines) =
        append_all (n_history_append history h x) lines := by
      simp [append_all]
    have hone : n_history_append history h x =
        { h with list := x :: h.list, cursor := 0 } := by
      simp only [n_history_append, history]
      rw [history_evict_within _ _ _ (by simp only [List.length_cons]; omega)]
    rw [hstep, hone]
    have := ih { h with list := x :: h.list, cursor := 0 }
      (by simp only [List.length_cons]; omega)
    simpa using this

/-- With the cursor of the default store on position `c`, the entry there and
the steps of `H_PREV` after it yield the entries at positions `c, c - 1, ..., 0`
of its list. -/
theorem history_yields_from (L : List CStr) (max : Nat) : ∀ (c : Nat) (hc : c < L.length),
    Yields history (({ list := L, cursor := c, max := max } : History), some (L.get ⟨c, hc⟩))
      ((L.take (c + 1)).reverse) := by
  intro c
  induction c with
  | zero =>
    intro hc
    cases L with
    | nil => simp at hc
    | cons a L => simp [Yields, history]
  | succ c ih =>
    intro hc
    have hc2 : c < L.length := by omega
    have htake : (L.take (c + 1 + 1)).reverse =
        L.get ⟨c + 1, hc⟩ :: (L.take (c + 1)).reverse := by
      rw [List.take_succ, List.reverse_append]
      simp [List.getElem?_eq_getElem hc]
    rw [htake]
    simp only [Yields, true_and]
    have hstep : history ({ list := L, cursor := c + 1, max := max } : History)
        HistOp.H_PREV =
        (({ list := L, cursor := c, max := max } : History), some (L.get ⟨c, hc2⟩)) := by
      simp [history, List.getElem?_eq_getElem hc2]
    rw [hstep]
    exact ih hc2

/-- On the default store the traversal of `n_history_get_all` yields the
whole list from its far end, that is the entries from the oldest to the most
recently entered. -/
theorem history_last_yields (h : History) :
    Yields history (history h HistOp.H_LAST) h.list.reverse := by
  rcases h with ⟨L, cur, max⟩
  by_cases hL : L = []
  · subst hL; simp [history, Yields]
  · have hpos : 0 < L.length := List.length_pos.mpr hL
    have hlast : L.getLast? = some (L.get ⟨L.length - 1, by omega⟩) := by
      rw [List.getLast?_eq_getLast _ hL, List.getLast_eq_getElem]
      simp
    have hstep : history ({ list := L, cursor := cur, max := max } : History) HistOp.H_LAST =
        (({ list := L, cursor := L.length - 1, max := max } : History),
          some (L.get ⟨L.length - 1, by omega⟩)) := by
      simp only [history, hlast]
    rw [hstep]
    have := history_yields_from L max (L.length - 1) (by omega)
    rw [show L.length - 1 + 1 = L.length by omega, List.take_length] at this
    exact this

/-- Whatever was appended, `n_history_get_all` on the default store returns
the entries the store holds, the oldest first. -/
theorem history_get_all_of_store (h : History) (extra : Nat) :
    n_history_get_all history (h.list.length + 1 + extra) h = Outcome.done h.list.reverse := by
  have hy := history_last_yields h
  have := get_all_run_of_yields history (h.list.length + 1 + extra) h h.list.reverse hy
    (by simp only [List.length_reverse]; omega)
  simp [n_history_get_all, this]

/-- The store right after `history_init` has the size 0 and keeps nothing:
until `n_history_set_size` is called every appended line is evicted at once,
`n_history_get_all` returns the empty array and `n_history_current` NULL.
With the size 2, appending "a", "b", "c" evicts "a" and the array is "b",
"c". -/
theorem history_eviction_examples :
    n_history_get_all history 4
        (append_all history_init ["a".toList, "b".toList, "c".toList]) = Outcome.done [] ∧
    n_history_current history
        (append_all history_init ["a".toList, "b".toList, "c".toList]) = none ∧
    n_history_get_all history 4
        (append_all (n_history_set_size history history_init 2)
          ["a".toList, "b".toList, "c".toList]) =
      Outcome.done ["b".toList, "c".toList] := by
  decide

/-- C4, amended. For every history store of size `size`, set through
`n_history_set_size` right after `history_init`, whose entries were appended
in the order e1, ..., en with `n ≤ size`, so that none was evicted,
`n_history_get_all` returns an array of length n that is oldest-first: index 0
holds e1, index k holds e(k+1), index n - 1 holds en; the array is the list of
appended lines in the order of appending. The traversal needs `n + 1` replies
and any larger allowance gives the same result. -/
theorem history_get_all_oldest_first (size : Nat) (lines : List CStr) (extra : Nat)
    (hsize : lines.length ≤ size) :
    n_history_get_all history (lines.length + 1 + extra)
        (append_all (n_history_set_size history history_init (size : Int)) lines) =
      Outcome.done lines := by
  have hset : n_history_set_size history history_init (size : Int) =
      { list := [], cursor := 0, max := size } := by
    have hneg : ¬ ((size : Int) < 0) := by omega
    simp [n_history_set_size, history, history_init, hneg]
  rw [hset]
  have hlist := (append_all_list lines { list := [], cursor := 0, max := size }
    (by simpa using hsize)).1
  simp only [List.append_nil] at hlist
  have := history_get_all_of_store
    (append_all { list := [], cursor := 0, max := size } lines) extra
  rw [hlist] at this
  simpa using this

/-- C4, amended, on a store of size 3 with "a", "b", "c" appended: the array
returned is "a", "b", "c". -/
theorem history_get_all_oldest_first_witness :
    ["a".toList, "b".toList, "c".toList].length ≤ 3 ∧
    n_history_get_all history 4
        (append_all (n_history_set_size history history_init 3)
          ["a".toList, "b".toList, "c".toList]) =
      Outcome.done ["a".toList, "b".toList, "c".toList] :=
  ⟨by decide,
    history_get_all_oldest_first 3 ["a".toList, "b".toList, "c".toList] 0 (by decide)⟩

/-- C4, as stated, fails. On a store of size 100, after "a", "b", "c" are
appended in that order and none is evicted, `n_history_get_all` returns "a",
"b", "c" and not "c", "b", "a": index 0 holds the oldest entry, while
`n_history_current` (request `H_FIRST`) gives "c", the most recent one. -/
theorem history_get_all_not_newest_first :
    (append_all (n_history_set_size history history_init 100)
        ["a".toList, "b".toList, "c".toList]).list.length = 3 ∧
    n_history_get_all history 4
        (append_all (n_history_set_size history history_init 100)
          ["a".toList, "b".toList, "c".toList]) =
      Outcome.done ["a".toList, "b".toList, "c".toList] ∧
    n_history_get_all history 4
        (append_all (n_history_set_size history history_init 100)
          ["a".toList, "b".toList, "c".toList]) ≠
      Outcome.done ["c".toList, "b".toList, "a".toList] ∧
    n_history_current history
        (append_all (n_history_set_size history history_init 100)
          ["a".toList, "b".toList, "c".toList]) =
      some "c".toList := by
  decide

end JavaEditLine
